import Mathlib

/-!
# Verification of the workPal filesystem planning/execution engine

Shallow embedding of the core engine of the repository (the Electron main-process
module containing `normalizeRoot`, `ensureWithinRoot`, `listDirectory`,
`countMatchesLiteral`, `countMatchesRegex` and `applyPlan`).

Modelling conventions:
* Paths are modelled with POSIX semantics (`sep = "/"`): Node's
  `path.normalize` / `path.resolve` / `path.dirname` are embedded as total
  functions on `List Char`.  Trailing-separator preservation of
  `path.normalize` is omitted because every use re-normalizes through
  `resolve`, which discards trailing separators.
* The filesystem is an association list from absolute path to node, threaded
  explicitly; every host filesystem call additionally appends an event to an
  effect trace so that "no write/rename/... was issued" is a statement about
  the trace.
* JavaScript strings are Lean `String`s (indices are characters, abstracting
  from UTF-16 code units).
* The JavaScript regular-expression engine is abstracted as a match oracle
  (`RegexSem`); the flag plumbing (`global` forcing) of the source is embedded
  exactly.
-/

namespace WorkPal

instance {ε α : Type} [DecidableEq ε] [DecidableEq α] : DecidableEq (Except ε α)
  | Except.error a, Except.error b => decidable_of_iff (a = b) (by simp)
  | Except.error _, Except.ok _ => isFalse (by simp)
  | Except.ok _, Except.error _ => isFalse (by simp)
  | Except.ok a, Except.ok b => decidable_of_iff (a = b) (by simp)

/-- Whitespace test backing the JavaScript `String.prototype.trim` emptiness
check in `ensureWithinRoot` (`!relPath.trim()`). -/
def isWhite (c : Char) : Bool :=
  c = ' ' || c = '\t' || c = '\n' || c = '\r'

/-- `strBlank s` is true when `s.trim()` would be the empty string. -/
def strBlank (s : String) : Bool := s.data.all isWhite

/-- JavaScript `s.startsWith p`, as used by the containment check of
`ensureWithinRoot`. -/
def strStartsWith (s p : String) : Bool := p.data.isPrefixOf s.data

/-- JavaScript `s.endsWith p`, as used by `normalizeRoot`. -/
def strEndsWith (s p : String) : Bool := p.data.isSuffixOf s.data

/-- Split a character list at every `'/'` (segments may be empty, as in
`"a//b"` or a leading separator). -/
def splitSlash : List Char → List (List Char)
  | [] => [[]]
  | c :: rest =>
    let r := splitSlash rest
    if c = '/' then [] :: r
    else
      match r with
      | [] => [[c]]
      | h :: t => (c :: h) :: t

/-- The non-empty slash-separated segments of a path. -/
def pathSegs (p : List Char) : List (List Char) :=
  (splitSlash p).filter (fun s => s ≠ [])

/-- One step of POSIX path-segment normalization: `"."` is dropped, `".."`
pops the previous segment (kept at the front of a relative path, dropped at
the root of an absolute one), anything else is appended. -/
def normFoldStep (isAbs : Bool) (stack : List (List Char)) (seg : List Char) :
    List (List Char) :=
  if seg = ['.'] then stack
  else if seg = ['.', '.'] then
    if isAbs then stack.dropLast
    else
      match stack.getLast? with
      | none => stack ++ [seg]
      | some l => if l = ['.', '.'] then stack ++ [seg] else stack.dropLast
  else stack ++ [seg]

/-- Normalize a segment list (POSIX `.`/`..` resolution). -/
def normSegs (isAbs : Bool) (segs : List (List Char)) : List (List Char) :=
  segs.foldl (normFoldStep isAbs) []

/-- Does the path start with a separator? -/
def isAbsPath : List Char → Bool
  | '/' :: _ => true
  | _ => false

/-- Normalization of an absolute path, as performed by Node's
`path.posix.resolve` on its final result: leading `'/'`, `.`/`..` resolved
against the root, no trailing separator (except for the root itself). -/
def normAbs (p : List Char) : List Char :=
  '/' :: List.intercalate ['/'] (normSegs true (pathSegs p))

/-- Node `path.posix.normalize` (trailing-separator preservation omitted, see
module header): `.`/`..` segments resolved, leading `..` kept on relative
paths, empty relative result replaced by `"."`. -/
def pathNormalize (p : List Char) : List Char :=
  let abs := isAbsPath p
  let n := List.intercalate ['/'] (normSegs abs (pathSegs p))
  if abs then '/' :: n
  else if n = [] then ['.'] else n

/-- The `.replace(/^[\\/]+/, "")` step of `ensureWithinRoot`: strip leading
forward and backward slashes. -/
def stripLeadingSeps (p : List Char) : List Char :=
  p.dropWhile (fun c => c = '/' || c = '\\')

/-- Node `path.resolve(a)` with one argument, made total by passing the
process working directory explicitly. -/
def resolve1 (cwd a : List Char) : List Char :=
  if isAbsPath a then normAbs a else normAbs (cwd ++ '/' :: a)

/-- Node `path.resolve(a, b)` with two arguments (right-to-left resolution
against the explicit working directory). -/
def resolve2 (cwd a b : List Char) : List Char :=
  if isAbsPath b then normAbs b
  else if isAbsPath a then normAbs (a ++ '/' :: b)
  else normAbs (cwd ++ '/' :: a ++ '/' :: b)

/-- Node `path.posix.dirname` restricted to the absolute separator-free-tail
paths it is applied to in this module (`execMove`'s destination parent). -/
def dirname (p : List Char) : List Char :=
  match (pathSegs p).dropLast with
  | [] => ['/']
  | xs => '/' :: List.intercalate ['/'] xs

/-- `normalizeRoot` of the source: make the root absolute and guarantee a
trailing separator, so that prefix containment checks cannot be fooled by a
sibling directory sharing a prefix. -/
def normalizeRoot (cwd root : String) : String :=
  let abs := resolve1 cwd.data root.data
  if strEndsWith (String.mk abs) "/" then String.mk abs
  else String.mk (abs ++ ['/'])

/-- `ensureWithinRoot` of the source: reject blank paths, strip leading
separators, normalize, resolve against the root, and require the result to
start with the root (trailing separator included). -/
def ensureWithinRoot (cwd : List Char) (rootWithSep relPath : String) :
    Except String String :=
  if strBlank relPath then Except.error "path 不能为空"
  else
    let normalized := stripLeadingSeps (pathNormalize relPath.data)
    let abs := resolve2 cwd rootWithSep.data normalized
    if strStartsWith (String.mk abs) rootWithSep then Except.ok (String.mk abs)
    else Except.error ("路径越界：" ++ relPath)

/-! ## Text substitution engine -/

/-- First index (if any) at which `s` occurs in `t`: the model of JavaScript
`t.indexOf(s)` (and, after a `drop`, of `t.indexOf(s, idx)`). -/
def findOcc (s : List Char) : List Char → Option Nat
  | [] => if s.isPrefixOf ([] : List Char) then some 0 else none
  | c :: t => if s.isPrefixOf (c :: t) then some 0 else (findOcc s t).map (· + 1)

/-- The `while` loop of `countMatchesLiteral`: repeatedly `indexOf` from the
current index, counting and jumping past each occurrence.  The source loop
terminates because the search string is non-empty whenever it iterates; the
embedding carries explicit fuel (one unit per possible start index). -/
def countLoop (text search : List Char) : Nat → Nat → Nat → Nat
  | 0, _, count => count
  | fuel + 1, idx, count =>
    match findOcc search (text.drop idx) with
    | none => count
    | some k => countLoop text search fuel (idx + k + search.length) (count + 1)

/-- `countMatchesLiteral` of the source: `0` for an empty search string,
otherwise the left-to-right non-overlapping occurrence count. -/
def countMatchesLiteral (text search : String) : Nat :=
  if search.data = [] then 0
  else countLoop text.data search.data (text.data.length + 1) 0 0

/-- JavaScript `t.split(s)`: an empty separator splits into single
characters; otherwise the string is cut at each left-to-right non-overlapping
occurrence of the separator (fuelled version of the recursion). -/
def jsSplitFuel (s : List Char) : Nat → List Char → List (List Char)
  | 0, t => [t]
  | fuel + 1, t =>
    match findOcc s t with
    | none => [t]
    | some k => t.take k :: jsSplitFuel s fuel (t.drop (k + s.length))

/-- JavaScript `t.split(s)`. -/
def jsSplit (s t : List Char) : List (List Char) :=
  if s = [] then t.map (fun c => [c]) else jsSplitFuel s (t.length + 1) t

/-- `raw.split(op.search).join(op.replace)` — the literal-mode replacement of
`execReplace`. -/
def jsSplitJoin (raw search repl : String) : String :=
  String.mk (List.intercalate repl.data (jsSplit search.data raw.data))

/-- Specification-side occurrence count: the number of non-overlapping
occurrences of `s` found by scanning `t` left to right (direct recursion,
stated independently of the `indexOf` loop of the source). -/
def occCountSpec (s : List Char) : List Char → Nat
  | [] => 0
  | c :: t =>
    if s ≠ [] ∧ s.isPrefixOf (c :: t) then 1 + occCountSpec s (t.drop (s.length - 1))
    else occCountSpec s t
termination_by t => t.length
decreasing_by
  · simp only [List.length_cons, List.length_drop]
    omega
  · simp

/-- Specification-side replacement: substitute `r` for every non-overlapping
left-to-right occurrence of `s` in the text. -/
def replaceAllSpec (s r : List Char) : List Char → List Char
  | [] => []
  | c :: t =>
    if s ≠ [] ∧ s.isPrefixOf (c :: t) then r ++ replaceAllSpec s r (t.drop (s.length - 1))
    else c :: replaceAllSpec s r t
termination_by t => t.length
decreasing_by
  · simp only [List.length_cons, List.length_drop]
    omega
  · simp

/-! ## Regular-expression model

The host regex engine is abstracted as a match oracle taking the pattern
source, the subject and a start position, and returning the span of the next
match at or after that position.  The flag bookkeeping of the source
(`re.global`, forcing a `"g"` flag) is embedded exactly. -/

/-- Abstract regex engine: pattern source → subject → start index → span
`(matchStart, matchEnd)` of the next match, if any. -/
def RegexSem : Type := String → String → Nat → Option (Nat × Nat)

/-- A JavaScript `RegExp` value: pattern source plus flags. -/
structure JsRegex where
  source : String
  flags : String
  deriving DecidableEq, Repr

/-- `re.global`: whether the flags contain `'g'`. -/
def JsRegex.isGlobal (re : JsRegex) : Bool := re.flags.data.contains 'g'

/-- The `while (globalRe.exec(text))` loop of `countMatchesRegex`: `exec`
advances `lastIndex` to the end of each match when the regex is global; a
non-global regex reports at most one match (the `break`).  Fuel bounds the
iteration count. -/
def regexExecLoop (sem : RegexSem) (re : JsRegex) (text : String) :
    Nat → Nat → Nat → Nat
  | 0, _, count => count
  | fuel + 1, lastIndex, count =>
    match sem re.source text lastIndex with
    | none => count
    | some sp =>
      if re.isGlobal then regexExecLoop sem re text fuel sp.2 (count + 1)
      else count + 1

/-- `countMatchesRegex` of the source: force a global regex, then count all
matches with the `exec` loop. -/
def countMatchesRegex (sem : RegexSem) (re : JsRegex) (text : String) : Nat :=
  let globalRe := if re.isGlobal then re else JsRegex.mk re.source (re.flags ++ "g")
  regexExecLoop sem globalRe text (text.data.length + 1) 0 0

/-- All matches of a pattern in the whole subject, enumerated left to right
from position 0 (specification-side notion used to state the "global
semantics by default" property). -/
def regexMatchesFrom (sem : RegexSem) (src text : String) :
    Nat → Nat → List (Nat × Nat)
  | 0, _ => []
  | fuel + 1, i =>
    match sem src text i with
    | none => []
    | some sp => sp :: regexMatchesFrom sem src text fuel sp.2

/-- The list of every match of `src` in `text`. -/
def regexMatchList (sem : RegexSem) (src text : String) : List (Nat × Nat) :=
  regexMatchesFrom sem src text (text.data.length + 1) 0

/-- Substitute `repl` for each of the (left-to-right, disjoint) spans in the
subject. -/
def replaceSpans (text repl : String) (spans : List (Nat × Nat)) : String :=
  let cs := text.data
  let r := spans.foldl
    (fun acc sp => (acc.1 ++ (cs.drop acc.2).take (sp.1 - acc.2) ++ repl.data, sp.2))
    (([] : List Char), 0)
  String.mk (r.1 ++ cs.drop r.2)

/-- JavaScript `text.replace(re, repl)` for a regex argument: a global regex
replaces every match, a non-global one only the first.  Replacement-pattern
expansion (`$1` …) is not modelled; `repl` is inserted verbatim. -/
def jsRegexReplace (sem : RegexSem) (re : JsRegex) (text repl : String) : String :=
  if re.isGlobal then replaceSpans text repl (regexMatchList sem re.source text)
  else
    match sem re.source text 0 with
    | none => text
    | some sp => replaceSpans text repl [sp]

/-- A toy concrete engine matching one literal character, used to evaluate
the regex-mode statements on concrete inputs. -/
def semLiteralChar (c : Char) : RegexSem := fun _src text i =>
  (findOcc [c] (text.data.drop i)).map (fun k => (i + k, i + k + 1))

/-! ## Filesystem model and effect trace -/

/-- One filesystem node: a regular file (content, stat size in bytes,
modification time) or a directory. -/
inductive FsNode where
  | file (content : String) (size : Nat) (mtimeMs : Nat)
  | dir (mtimeMs : Nat)
  deriving DecidableEq, Repr

/-- A filesystem snapshot: absolute path → node. -/
abbrev FS := List (String × FsNode)

/-- Look a path up in the snapshot. -/
def FS.lookup (fs : FS) (p : String) : Option FsNode :=
  (fs.find? (fun e => e.1 = p)).map (fun e => e.2)

/-- One issued host filesystem call.  `statE`/`readE` are the read-only
calls; the other four mutate the disk. -/
inductive Eff where
  | statE (p : String)
  | readE (p : String)
  | writeE (p : String)
  | mkdirE (p : String)
  | renameE (src dst : String)
  | rmE (p : String)
  deriving DecidableEq, Repr

/-- Is the call a mutating one (write / create / delete / rename)? -/
def Eff.isMutating : Eff → Bool
  | Eff.statE _ => false
  | Eff.readE _ => false
  | _ => true

/-- The absolute ancestor prefixes of an absolute path, shortest first,
including the path itself. -/
def absPrefixes (p : String) : List String :=
  let segs := pathSegs p.data
  (List.range segs.length).map
    (fun i => String.mk ('/' :: List.intercalate ['/'] (segs.take (i + 1))))

/-- `fs.mkdir(abs, { recursive: true })`: create the directory and every
missing ancestor; an existing directory is success, a file in the way is an
error. -/
def mkdirRec (fs : FS) (p : String) : Except String FS :=
  (absPrefixes p).foldlM
    (fun acc q =>
      match FS.lookup acc q with
      | some (FsNode.dir _) => Except.ok acc
      | some (FsNode.file _ _ _) => Except.error ("ENOTDIR: mkdir " ++ q)
      | none => Except.ok (acc ++ [(q, FsNode.dir 0)]))
    fs

/-- Rewrite a key under a rename of `a` to `b` (the key itself or anything in
its subtree). -/
def rekey (a b k : String) : Option String :=
  if k = a then some b
  else if strStartsWith k (a ++ "/") then
    some (b ++ String.mk (k.data.drop a.data.length))
  else none

/-- `fs.rename(a, b)`: fails if the source is missing; otherwise the subtree
at `b` is replaced by the subtree at `a` (POSIX-style overwrite; the host
overwrite behaviour is not special-cased by the source either). -/
def renameFs (fs : FS) (a b : String) : Except String FS :=
  match FS.lookup fs a with
  | none => Except.error ("ENOENT: rename " ++ a)
  | some _ =>
    let cleared := fs.filter
      (fun e => ¬ (e.1 = b ∨ strStartsWith e.1 (b ++ "/")))
    Except.ok (cleared.map
      (fun e => match rekey a b e.1 with
                | some k => (k, e.2)
                | none => e))

/-- `fs.rm(abs, { recursive: true, force: true })`: drop the node and its
subtree; a missing path is success. -/
def rmFs (fs : FS) (p : String) : FS :=
  fs.filter (fun e => ¬ (e.1 = p ∨ strStartsWith e.1 (p ++ "/")))

/-- `fs.writeFile(abs, next, "utf-8")`: replace or create the file entry
(size bookkeeping approximated by the character count, which is never read
back by the engine except through `stat`). -/
def writeFileFs (fs : FS) (p : String) (content : String) : FS :=
  if (FS.lookup fs p).isSome then
    fs.map (fun e => if e.1 = p then (p, FsNode.file content content.length 0) else e)
  else fs ++ [(p, FsNode.file content content.length 0)]

/-! ## Operations, executor state and `applyPlan` -/

/-- Mode of a text substitution. -/
inductive RtMode where
  | literal
  | regex
  deriving DecidableEq, Repr

/-- A `replaceText` operation. -/
structure ReplaceTextOp where
  path : String
  mode : RtMode
  search : String
  replace : String
  flags : Option String
  deriving DecidableEq, Repr

/-- An `FsOperation` of the source.  `unknownOp` stands for any operation
value whose `op` tag is none of the four known strings (the dynamically-typed
source dispatches on that tag and throws `未知操作` otherwise). -/
inductive FsOperation where
  | mkdirOp (path : String)
  | move (src dst : String)
  | delete (path : String)
  | replaceText (op : ReplaceTextOp)
  | unknownOp (tag : String)
  deriving DecidableEq, Repr

/-- One preview line of the result. -/
structure PreviewLine where
  title : String
  detail : Option String
  deriving DecidableEq, Repr

/-- Mutable state threaded through one `applyPlan` call: the disk snapshot,
the trace of issued host calls, and the accumulated preview lines. -/
structure St where
  fs : FS
  trace : List Eff
  preview : List PreviewLine
  deriving DecidableEq, Repr

/-- `execMkdir` of the source: sandbox-check the path, then issue the
recursive `mkdir`. -/
def execMkdir (cwd : List Char) (root rel : String) (s : St) :
    Except String Unit × St :=
  match ensureWithinRoot cwd root rel with
  | Except.error e => (Except.error e, s)
  | Except.ok abs =>
    match mkdirRec s.fs abs with
    | Except.error e => (Except.error e, St.mk s.fs (s.trace ++ [Eff.mkdirE abs]) s.preview)
    | Except.ok fs2 => (Except.ok (), St.mk fs2 (s.trace ++ [Eff.mkdirE abs]) s.preview)

/-- `execMove` of the source: sandbox-check both endpoints, create the
destination's parent chain, then rename. -/
def execMove (cwd : List Char) (root relFrom relTo : String) (s : St) :
    Except String Unit × St :=
  match ensureWithinRoot cwd root relFrom with
  | Except.error e => (Except.error e, s)
  | Except.ok fromAbs =>
    match ensureWithinRoot cwd root relTo with
    | Except.error e => (Except.error e, s)
    | Except.ok toAbs =>
      let parent := String.mk (dirname toAbs.data)
      match mkdirRec s.fs parent with
      | Except.error e =>
        (Except.error e, St.mk s.fs (s.trace ++ [Eff.mkdirE parent]) s.preview)
      | Except.ok fs2 =>
        let tr := s.trace ++ [Eff.mkdirE parent, Eff.renameE fromAbs toAbs]
        match renameFs fs2 fromAbs toAbs with
        | Except.error e => (Except.error e, St.mk fs2 tr s.preview)
        | Except.ok fs3 => (Except.ok (), St.mk fs3 tr s.preview)

/-- `execDelete` of the source: sandbox-check the path, then `rm` it
recursively and forcefully. -/
def execDelete (cwd : List Char) (root rel : String) (s : St) :
    Except String Unit × St :=
  match ensureWithinRoot cwd root rel with
  | Except.error e => (Except.error e, s)
  | Except.ok abs =>
    (Except.ok (), St.mk (rmFs s.fs abs) (s.trace ++ [Eff.rmE abs]) s.preview)

/-- `execReplace` of the source: sandbox check, stat, `NotAFile` and 2 MiB
guards, read, literal or regex substitution, preview line, and (commit only,
content changed only) the write-back. -/
def execReplace (sem : RegexSem) (cwd : List Char) (root : String) (commit : Bool)
    (op : ReplaceTextOp) (s : St) : Except String Unit × St :=
  match ensureWithinRoot cwd root op.path with
  | Except.error e => (Except.error e, s)
  | Except.ok abs =>
    let s1 := St.mk s.fs (s.trace ++ [Eff.statE abs]) s.preview
    match FS.lookup s.fs abs with
    | none => (Except.error ("ENOENT: stat " ++ abs), s1)
    | some (FsNode.dir _) => (Except.error ("不是文件：" ++ op.path), s1)
    | some (FsNode.file content size _) =>
      if size > 2 * 1024 * 1024 then
        (Except.error ("文件过大，跳过替换（>2MB）：" ++ op.path), s1)
      else
        let s2 := St.mk s1.fs (s1.trace ++ [Eff.readE abs]) s1.preview
        let raw := content
        let pair : Nat × String :=
          match op.mode with
          | RtMode.regex =>
            let flags := op.flags.getD "g"
            let re := JsRegex.mk op.search
              (if flags.data.contains 'g' then flags else flags ++ "g")
            (countMatchesRegex sem re raw, jsRegexReplace sem re raw op.replace)
          | RtMode.literal =>
            (countMatchesLiteral raw op.search, jsSplitJoin raw op.search op.replace)
        let title := (if commit then "替换 " else "将替换 ") ++ op.path
        let line := PreviewLine.mk title (some ("匹配次数：" ++ toString pair.1))
        let s3 := St.mk s2.fs s2.trace (s2.preview ++ [line])
        if commit = false then (Except.ok (), s3)
        else if pair.2 = raw then (Except.ok (), s3)
        else
          (Except.ok (),
           St.mk (writeFileFs s3.fs abs pair.2) (s3.trace ++ [Eff.writeE abs]) s3.preview)

/-- One iteration of the `for (const op of ops)` loop of `applyPlan` (the
`try` body): push the generic preview line for `mkdir`/`move`/`delete`
operations, then execute when committing; delegate `replaceText` entirely to
`execReplace`; throw on an unknown tag. -/
def stepOp (sem : RegexSem) (cwd : List Char) (root : String) (commit : Bool)
    (op : FsOperation) (s : St) : Except String Unit × St :=
  match op with
  | FsOperation.mkdirOp p =>
    let line := PreviewLine.mk ((if commit then "创建目录 " else "将创建目录 ") ++ p) none
    let s1 := St.mk s.fs s.trace (s.preview ++ [line])
    if commit then execMkdir cwd root p s1 else (Except.ok (), s1)
  | FsOperation.move a b =>
    let line := PreviewLine.mk
      ((if commit then "移动 " else "将移动 ") ++ a ++ " → " ++ b) none
    let s1 := St.mk s.fs s.trace (s.preview ++ [line])
    if commit then execMove cwd root a b s1 else (Except.ok (), s1)
  | FsOperation.delete p =>
    let line := PreviewLine.mk ((if commit then "删除 " else "将删除 ") ++ p) none
    let s1 := St.mk s.fs s.trace (s.preview ++ [line])
    if commit then execDelete cwd root p s1 else (Except.ok (), s1)
  | FsOperation.replaceText rop => execReplace sem cwd root commit rop s
  | FsOperation.unknownOp tag => (Except.error ("未知操作: " ++ tag), s)

/-- The operation loop of `applyPlan`: each operation's exception is caught
and appended to the error list, and processing continues with the next
operation. -/
def runOps (sem : RegexSem) (cwd : List Char) (root : String) (commit : Bool) :
    List FsOperation → St × List String → St × List String
  | [], acc => acc
  | op :: rest, acc =>
    match stepOp sem cwd root commit op acc.1 with
    | (Except.ok _, s2) => runOps sem cwd root commit rest (s2, acc.2)
    | (Except.error e, s2) => runOps sem cwd root commit rest (s2, acc.2 ++ [e])

/-- A plan invocation. -/
structure ApplyPlanInput where
  root : String
  operations : List FsOperation
  commit : Bool
  deriving DecidableEq, Repr

/-- The aggregated result of `applyPlan`. -/
structure ApplyPlanResult where
  ok : Bool
  root : String
  preview : List PreviewLine
  errors : List String
  deriving DecidableEq, Repr

/-- `applyPlan` of the source, with the working directory, the regex oracle
and the disk snapshot passed explicitly; besides the result it returns the
final snapshot and the trace of issued host calls. -/
def applyPlan (sem : RegexSem) (cwd : String) (input : ApplyPlanInput) (fs : FS) :
    ApplyPlanResult × FS × List Eff :=
  let rootWithSep := normalizeRoot cwd input.root
  let r := runOps sem cwd.data rootWithSep input.commit input.operations
    (St.mk fs [] [], [])
  (ApplyPlanResult.mk r.2.isEmpty rootWithSep r.1.preview r.2, r.1.fs, r.1.trace)

/-! ## Directory walker -/

/-- One node of a directory tree snapshot (the walker's view of the disk).
Only regular files and directories occur: the source silently skips any other
entry kind. -/
inductive DirItem where
  | file (name : String) (size : Nat) (mtimeMs : Nat)
  | dir (name : String) (mtimeMs : Nat) (children : List DirItem)

/-- An entry of the walker's output. -/
structure FsEntry where
  path : String
  type : String
  size : Nat
  mtimeMs : Nat
  deriving DecidableEq, Repr

/-- Root-relative path of a child (`toRel` composed with `join` collapses to
this for paths built under the root). -/
def joinRel (pre name : String) : String :=
  if pre = "" then name else pre ++ "/" ++ name

mutual
/-- The `for (const item of items)` loop of the source's `walk`: before each
item the accumulated length is checked against the cap. -/
def walkItems (cap : Nat) (pre : String) (items : List DirItem)
    (out : List FsEntry) : List FsEntry :=
  match items with
  | [] => out
  | item :: rest =>
    if out.length ≥ cap then out
    else walkItems cap pre rest (walkItem cap pre item out)

/-- Processing of a single entry: a file is appended; a directory is appended
and then recursed into. -/
def walkItem (cap : Nat) (pre : String) (item : DirItem)
    (out : List FsEntry) : List FsEntry :=
  match item with
  | DirItem.file n sz mt => out ++ [FsEntry.mk (joinRel pre n) "file" sz mt]
  | DirItem.dir n mt children =>
    walkItems cap (joinRel pre n) children
      (out ++ [FsEntry.mk (joinRel pre n) "dir" 0 mt])
end

/-- `listDirectory` of the source, over a tree snapshot of the root. -/
def listDirectory (root : List DirItem) (maxEntries : Nat) : List FsEntry :=
  walkItems maxEntries "" root []

mutual
/-- Total number of files and directories in the tree. -/
def totalEntries : List DirItem → Nat
  | [] => 0
  | item :: rest => itemEntries item + totalEntries rest

/-- Number of entries a single item (with its subtree) contributes. -/
def itemEntries : DirItem → Nat
  | DirItem.file _ _ _ => 1
  | DirItem.dir _ _ children => 1 + totalEntries children
end

/-! ## Helper lemmas -/

/-- The operation loop processes a concatenation by processing the two parts
in order: a failure inside the first part never prevents the second part from
running. -/
theorem runOps_append (sem : RegexSem) (cwd : List Char) (root : String)
    (commit : Bool) (l1 l2 : List FsOperation) (acc : St × List String) :
    runOps sem cwd root commit (l1 ++ l2) acc =
      runOps sem cwd root commit l2 (runOps sem cwd root commit l1 acc) := by
  induction l1 generalizing acc with
  | nil => rfl
  | cons op l1 ih =>
    show runOps sem cwd root commit (op :: (l1 ++ l2)) acc = _
    rcases h : stepOp sem cwd root commit op acc.1 with ⟨exc, s2⟩
    cases exc <;> simp [runOps, h, ih]

/-- A step that throws contributes exactly its message to the error list. -/
theorem runOps_error (sem : RegexSem) (cwd : List Char) (root : String)
    (commit : Bool) (op : FsOperation) (s s2 : St) (errs : List String)
    (e : String) (h : stepOp sem cwd root commit op s = (Except.error e, s2)) :
    runOps sem cwd root commit [op] (s, errs) = (s2, errs ++ [e]) := by
  simp [runOps, h]

/-- A step that succeeds contributes no error. -/
theorem runOps_ok (sem : RegexSem) (cwd : List Char) (root : String)
    (commit : Bool) (op : FsOperation) (s s2 : St) (errs : List String)
    (h : stepOp sem cwd root commit op s = (Except.ok (), s2)) :
    runOps sem cwd root commit [op] (s, errs) = (s2, errs) := by
  simp [runOps, h]

/-- `execMkdir` never touches the preview list. -/
theorem execMkdir_preview (cwd : List Char) (root rel : String) (s : St) :
    ((execMkdir cwd root rel s).2).preview = s.preview := by
  unfold execMkdir
  split
  · rfl
  · split <;> rfl

/-- `execMove` never touches the preview list. -/
theorem execMove_preview (cwd : List Char) (root a b : String) (s : St) :
    ((execMove cwd root a b s).2).preview = s.preview := by
  unfold execMove
  split
  · rfl
  · split
    · rfl
    · dsimp only
      split
      · rfl
      · split <;> rfl

/-- `execDelete` never touches the preview list. -/
theorem execDelete_preview (cwd : List Char) (root rel : String) (s : St) :
    ((execDelete cwd root rel s).2).preview = s.preview := by
  unfold execDelete
  split <;> rfl

/-- `execReplace` either leaves the preview untouched (it threw before its
preview line) or appends exactly one line. -/
theorem execReplace_preview (sem : RegexSem) (cwd : List Char) (root : String)
    (commit : Bool) (op : ReplaceTextOp) (s : St) :
    ((execReplace sem cwd root commit op s).2).preview = s.preview ∨
      ∃ line, ((execReplace sem cwd root commit op s).2).preview = s.preview ++ [line] := by
  cases commit
  all_goals
    unfold execReplace
    split
    · exact Or.inl rfl
    · split
      · exact Or.inl rfl
      · exact Or.inl rfl
      · split
        · exact Or.inl rfl
        · dsimp only
          split <;> (try split) <;> (try split) <;> simp

/-- Whatever its arguments, `resolve1` produces an absolute path. -/
theorem isAbsPath_resolve1 (cwd a : List Char) : isAbsPath (resolve1 cwd a) = true := by
  unfold resolve1
  split <;> rfl

/-! ## Claim theorems -/

/-- C10: the `root` field of every `applyPlan` result is the normalized root
(absolute, trailing separator appended), not the caller's original string
verbatim: the result's root equals `normalizeRoot`, that value always ends in
the separator and is always absolute, and on the concrete root `"/a/b"` it
differs from the verbatim input. -/
theorem c10_result_root_normalized (sem : RegexSem) (cwd : String)
    (input : ApplyPlanInput) (fs : FS) :
    (applyPlan sem cwd input fs).1.root = normalizeRoot cwd input.root ∧
    strEndsWith (normalizeRoot cwd input.root) "/" = true ∧
    isAbsPath (normalizeRoot cwd input.root).data = true ∧
    normalizeRoot "/cwd" "/a/b" = "/a/b/" ∧
    normalizeRoot "/cwd" "/a/b" ≠ "/a/b" := by
  refine ⟨rfl, ?_, ?_, by decide, by decide⟩
  · unfold normalizeRoot
    dsimp only
    split
    · assumption
    · exact List.isSuffixOf_iff_suffix.mpr (List.suffix_append _ _)
  · unfold normalizeRoot
    dsimp only
    split
    · exact isAbsPath_resolve1 _ _
    · show isAbsPath (resolve1 cwd.data input.root.data ++ ['/']) = true
      unfold resolve1
      split <;> rfl

/-- C6: a `replaceText` operation on a file whose stat size exceeds 2 MiB
fails with the `FileTooLarge` message before the file is read: the step
records exactly one error, appends no preview line, issues only the `stat`
call (no read, no write), and leaves the disk unchanged. -/
theorem c6_replace_file_too_large (sem : RegexSem) (cwd : List Char)
    (root : String) (commit : Bool) (rop : ReplaceTextOp) (s : St)
    (errs : List String) (abs content : String) (size mt : Nat)
    (habs : ensureWithinRoot cwd root rop.path = Except.ok abs)
    (hfile : FS.lookup s.fs abs = some (FsNode.file content size mt))
    (hsize : size > 2 * 1024 * 1024) :
    stepOp sem cwd root commit (FsOperation.replaceText rop) s =
      (Except.error ("文件过大，跳过替换（>2MB）：" ++ rop.path),
       St.mk s.fs (s.trace ++ [Eff.statE abs]) s.preview) ∧
    runOps sem cwd root commit [FsOperation.replaceText rop] (s, errs) =
      (St.mk s.fs (s.trace ++ [Eff.statE abs]) s.preview,
       errs ++ ["文件过大，跳过替换（>2MB）：" ++ rop.path]) := by
  have h1 : stepOp sem cwd root commit (FsOperation.replaceText rop) s =
      (Except.error ("文件过大，跳过替换（>2MB）：" ++ rop.path),
       St.mk s.fs (s.trace ++ [Eff.statE abs]) s.preview) := by
    show execReplace sem cwd root commit rop s = _
    unfold execReplace
    rw [habs]
    dsimp only
    rw [hfile]
    dsimp only
    rw [if_pos hsize]
  exact ⟨h1, by rw [runOps_error sem cwd root commit _ s _ errs _ h1]⟩

/-- Witness for C6 at a concrete input: a 3 000 000-byte file is rejected
with only a `stat` issued. -/
theorem c6_replace_file_too_large_witness :
    stepOp (semLiteralChar 'a') "/cwd".data "/r/" true
      (FsOperation.replaceText (ReplaceTextOp.mk "big.txt" RtMode.literal "a" "b" none))
      (St.mk [("/r/big.txt", FsNode.file "x" 3000000 0)] [] []) =
      (Except.error ("文件过大，跳过替换（>2MB）：" ++ "big.txt"),
       St.mk [("/r/big.txt", FsNode.file "x" 3000000 0)]
         ([] ++ [Eff.statE "/r/big.txt"]) []) ∧
    runOps (semLiteralChar 'a') "/cwd".data "/r/" true
      [FsOperation.replaceText (ReplaceTextOp.mk "big.txt" RtMode.literal "a" "b" none)]
      (St.mk [("/r/big.txt", FsNode.file "x" 3000000 0)] [] [], []) =
      (St.mk [("/r/big.txt", FsNode.file "x" 3000000 0)]
         ([] ++ [Eff.statE "/r/big.txt"]) [],
       [] ++ ["文件过大，跳过替换（>2MB）：" ++ "big.txt"]) :=
  c6_replace_file_too_large (semLiteralChar 'a') "/cwd".data "/r/" true
    (ReplaceTextOp.mk "big.txt" RtMode.literal "a" "b" none)
    (St.mk [("/r/big.txt", FsNode.file "x" 3000000 0)] [] []) []
    "/r/big.txt" "x" 3000000 0 (by decide) (by decide) (by decide)

/-- C7: per-operation fault isolation of `applyPlan`'s loop: processing a
concatenation processes the parts in order (so a failing operation never
aborts the remaining ones), and a step that throws contributes exactly its
message text, appended to the error list. -/
theorem c7_batch_isolation (sem : RegexSem) (cwd : List Char) (root : String)
    (commit : Bool) :
    (∀ (l1 l2 : List FsOperation) (acc : St × List String),
       runOps sem cwd root commit (l1 ++ l2) acc =
         runOps sem cwd root commit l2 (runOps sem cwd root commit l1 acc)) ∧
    (∀ (op : FsOperation) (s s2 : St) (errs : List String) (e : String),
       stepOp sem cwd root commit op s = (Except.error e, s2) →
       runOps sem cwd root commit [op] (s, errs) = (s2, errs ++ [e])) :=
  ⟨runOps_append sem cwd root commit,
   fun op s s2 errs e h => runOps_error sem cwd root commit op s s2 errs e h⟩

/-- Witness for C7 at a concrete input: an unknown-tag operation's exception
is recorded as its message text and the loop returns normally. -/
theorem c7_batch_isolation_witness :
    runOps (semLiteralChar 'a') "/cwd".data "/r/" true [FsOperation.unknownOp "x"]
      (St.mk [] [] [], []) = (St.mk [] [] [], [] ++ ["未知操作: x"]) :=
  (c7_batch_isolation (semLiteralChar 'a') "/cwd".data "/r/" true).2
    (FsOperation.unknownOp "x") (St.mk [] [] []) (St.mk [] [] []) [] "未知操作: x"
    (by decide)

/-- C3 (code bug): literal-mode replacement with an empty search string
reports a match count of zero, yet `split("")`/`join` rewrites the content —
on file content `"ab"` with replacement `"X"` the engine reports `0` matches
while rewriting the file to `"aXb"` and issuing a write in commit mode. -/
theorem c3_empty_search_rewrites_despite_zero_count :
    countMatchesLiteral "ab" "" = 0 ∧
    jsSplitJoin "ab" "" "X" = "aXb" ∧
    ("aXb" : String) ≠ "ab" ∧
    (applyPlan (semLiteralChar 'a') "/cwd"
        (ApplyPlanInput.mk "/r"
          [FsOperation.replaceText (ReplaceTextOp.mk "f.txt" RtMode.literal "" "X" none)]
          true)
        [("/r/f.txt", FsNode.file "ab" 2 0)]).2.1 =
      [("/r/f.txt", FsNode.file "aXb" 3 0)] ∧
    (applyPlan (semLiteralChar 'a') "/cwd"
        (ApplyPlanInput.mk "/r"
          [FsOperation.replaceText (ReplaceTextOp.mk "f.txt" RtMode.literal "" "X" none)]
          true)
        [("/r/f.txt", FsNode.file "ab" 2 0)]).2.2 =
      [Eff.statE "/r/f.txt", Eff.readE "/r/f.txt", Eff.writeE "/r/f.txt"] ∧
    (applyPlan (semLiteralChar 'a') "/cwd"
        (ApplyPlanInput.mk "/r"
          [FsOperation.replaceText (ReplaceTextOp.mk "f.txt" RtMode.literal "" "X" none)]
          true)
        [("/r/f.txt", FsNode.file "ab" 2 0)]).1.preview =
      [PreviewLine.mk "替换 f.txt" (some "匹配次数：0")] := by
  refine ⟨by decide, by decide, by decide, by decide, by decide, by decide⟩

/-- C1 (counterexample): an operation with a `..` path resolving outside the
root — the sandbox check on that path fails — processed with `commit=false`
records NO error at all (the claim demands a `PathEscape` error in both
modes): the dry run pushes the preview line and skips path validation
entirely for `mkdir`. -/
theorem c1_counterexample_dryrun_unchecked :
    ensureWithinRoot "/cwd".data (normalizeRoot "/cwd" "/r") "../evil" =
      Except.error "路径越界：../evil" ∧
    (applyPlan (semLiteralChar 'a') "/cwd"
        (ApplyPlanInput.mk "/r" [FsOperation.mkdirOp "../evil"] false) []).1.errors = [] ∧
    (applyPlan (semLiteralChar 'a') "/cwd"
        (ApplyPlanInput.mk "/r" [FsOperation.mkdirOp "../evil"] false) []).2.2 = [] ∧
    (applyPlan (semLiteralChar 'a') "/cwd"
        (ApplyPlanInput.mk "/r" [FsOperation.mkdirOp "../evil"] false) []).1.preview.length
      = 1 := by
  refine ⟨by decide, by decide, by decide, by decide⟩

/-- C2 (counterexample): with `commit=true` a `mkdir` whose path escapes the
root contributes BOTH a preview line and an error, refuting "no operation
contributes both an error and a preview line". -/
theorem c2_counterexample_preview_and_error :
    (applyPlan (semLiteralChar 'a') "/cwd"
        (ApplyPlanInput.mk "/r" [FsOperation.mkdirOp ".."] true) []).1.preview.length = 1 ∧
    (applyPlan (semLiteralChar 'a') "/cwd"
        (ApplyPlanInput.mk "/r" [FsOperation.mkdirOp ".."] true) []).1.errors.length = 1 := by
  refine ⟨by decide, by decide⟩

/-- A single dry-run step never changes the disk and issues only read-only
host calls. -/
theorem stepOp_dryRun (sem : RegexSem) (cwd : List Char) (root : String)
    (op : FsOperation) (s : St) :
    ((stepOp sem cwd root false op s).2).fs = s.fs ∧
    ∃ extra : List Eff,
      ((stepOp sem cwd root false op s).2).trace = s.trace ++ extra ∧
      extra.all (fun e => ! e.isMutating) = true := by
  cases op with
  | mkdirOp p => exact ⟨rfl, ⟨[], by rw [List.append_nil]; try exact rfl, rfl⟩⟩
  | move a b => exact ⟨rfl, ⟨[], by rw [List.append_nil]; try exact rfl, rfl⟩⟩
  | delete p => exact ⟨rfl, ⟨[], by rw [List.append_nil]; try exact rfl, rfl⟩⟩
  | unknownOp t => exact ⟨rfl, ⟨[], by rw [List.append_nil]; try exact rfl, rfl⟩⟩
  | replaceText rop =>
    show ((execReplace sem cwd root false rop s).2).fs = s.fs ∧
      ∃ extra : List Eff,
        ((execReplace sem cwd root false rop s).2).trace = s.trace ++ extra ∧
        extra.all (fun e => ! e.isMutating) = true
    unfold execReplace
    split
    · exact ⟨rfl, ⟨[], by rw [List.append_nil]; try exact rfl, rfl⟩⟩
    · rename_i abs habs
      split
      · exact ⟨rfl, ⟨[Eff.statE abs], rfl, rfl⟩⟩
      · exact ⟨rfl, ⟨[Eff.statE abs], rfl, rfl⟩⟩
      · split
        · exact ⟨rfl, ⟨[Eff.statE abs], rfl, rfl⟩⟩
        · refine ⟨rfl, ⟨[Eff.statE abs, Eff.readE abs], ?_, rfl⟩⟩
          dsimp only
          simp

/-- The whole dry-run loop never changes the disk and issues only read-only
host calls. -/
theorem runOps_dryRun (sem : RegexSem) (cwd : List Char) (root : String) :
    ∀ (ops : List FsOperation) (s : St) (errs : List String),
      ((runOps sem cwd root false ops (s, errs)).1).fs = s.fs ∧
      ∃ extra : List Eff,
        ((runOps sem cwd root false ops (s, errs)).1).trace = s.trace ++ extra ∧
        extra.all (fun e => ! e.isMutating) = true := by
  intro ops
  induction ops with
  | nil => intro s errs; exact ⟨rfl, ⟨[], by rw [List.append_nil]; try exact rfl, rfl⟩⟩
  | cons op rest ih =>
    intro s errs
    rcases h : stepOp sem cwd root false op s with ⟨exc, s2⟩
    have hstep := stepOp_dryRun sem cwd root op s
    rw [h] at hstep
    obtain ⟨hfs, extra1, htr1, hmut1⟩ := hstep
    have key : ∀ errs2 : List String,
        ((runOps sem cwd root false rest (s2, errs2)).1).fs = s.fs ∧
        ∃ extra : List Eff,
          ((runOps sem cwd root false rest (s2, errs2)).1).trace = s.trace ++ extra ∧
          extra.all (fun e => ! e.isMutating) = true := by
      intro errs2
      obtain ⟨hfs2, extra2, htr2, hmut2⟩ := ih s2 errs2
      refine ⟨hfs2.trans hfs, ⟨extra1 ++ extra2, ?_, ?_⟩⟩
      · rw [htr2, htr1, List.append_assoc]
      · simp [List.all_append, hmut1, hmut2]
    cases exc with
    | ok u => cases u; simpa [runOps, h] using key errs
    | error e => simpa [runOps, h] using key (errs ++ [e])

/-- C4: with `commit=false`, `applyPlan` leaves the disk untouched, issues no
write/create/delete/rename call (every traced call is read-only), and
re-invoking it on the resulting (identical) disk yields the byte-identical
result. -/
theorem c4_dry_run_pure (sem : RegexSem) (cwd root : String)
    (ops : List FsOperation) (fs : FS) :
    (applyPlan sem cwd (ApplyPlanInput.mk root ops false) fs).2.1 = fs ∧
    ((applyPlan sem cwd (ApplyPlanInput.mk root ops false) fs).2.2).all
        (fun e => ! e.isMutating) = true ∧
    ((applyPlan sem cwd (ApplyPlanInput.mk root ops false) fs).2.2).filter
        Eff.isMutating = [] ∧
    applyPlan sem cwd (ApplyPlanInput.mk root ops false)
        ((applyPlan sem cwd (ApplyPlanInput.mk root ops false) fs).2.1) =
      applyPlan sem cwd (ApplyPlanInput.mk root ops false) fs := by
  obtain ⟨hfs, extra, htr, hmut⟩ :=
    runOps_dryRun sem cwd.data (normalizeRoot cwd root) ops (St.mk fs [] []) []
  have h1 : (applyPlan sem cwd (ApplyPlanInput.mk root ops false) fs).2.1 = fs := hfs
  have h2 : (applyPlan sem cwd (ApplyPlanInput.mk root ops false) fs).2.2 = extra := by
    show ((runOps sem cwd.data (normalizeRoot cwd root) false ops
      (St.mk fs [] [], [])).1).trace = extra
    rw [htr]
    rfl
  refine ⟨h1, ?_, ?_, by rw [h1]⟩
  · rw [h2]; exact hmut
  · rw [h2]
    rw [List.filter_eq_nil_iff]
    intro a ha
    have := (List.all_eq_true.mp hmut) a ha
    simpa using this

/-- The effective flag string built by `execReplace` always contains `'g'`. -/
theorem effectiveFlags_contains_g (f : String) :
    ((if f.data.contains 'g' then f else f ++ "g") : String).data.contains 'g' = true := by
  by_cases h : f.data.contains 'g' = true
  · rw [if_pos h]; exact h
  · rw [if_neg h]; simp [String.data_append]

/-- With a global regex the `exec` loop counts exactly the matches of the
whole-file enumeration. -/
theorem regexExecLoop_global (sem : RegexSem) (re : JsRegex) (text : String)
    (hg : re.isGlobal = true) :
    ∀ (fuel i c : Nat),
      regexExecLoop sem re text fuel i c =
        c + (regexMatchesFrom sem re.source text fuel i).length := by
  intro fuel
  induction fuel with
  | zero => intro i c; simp [regexExecLoop, regexMatchesFrom]
  | succ n ih =>
    intro i c
    unfold regexExecLoop regexMatchesFrom
    cases h : sem re.source text i with
    | none => simp
    | some sp =>
      dsimp only
      rw [if_pos hg]
      rw [ih]
      simp only [List.length_cons]
      omega

/-- C5: whatever flags the caller supplies on a regex-mode replacement (an
absent flags field included), the regex `execReplace` builds is global, so
the reported count equals the number of matches of the pattern in the whole
file and the substitution replaces every match; concretely, pattern `a` with
flags `""` on content `"aaa"` counts 3 and replaces all three. -/
theorem c5_regex_forced_global (sem : RegexSem) (search text repl : String)
    (oflags : Option String) :
    countMatchesRegex sem
        (JsRegex.mk search
          (if (oflags.getD "g").data.contains 'g' then oflags.getD "g"
           else oflags.getD "g" ++ "g"))
        text = (regexMatchList sem search text).length ∧
    jsRegexReplace sem
        (JsRegex.mk search
          (if (oflags.getD "g").data.contains 'g' then oflags.getD "g"
           else oflags.getD "g" ++ "g"))
        text repl = replaceSpans text repl (regexMatchList sem search text) ∧
    countMatchesRegex (semLiteralChar 'a')
        (JsRegex.mk "a"
          (if ((some "" : Option String).getD "g").data.contains 'g' then
            (some "" : Option String).getD "g"
           else (some "" : Option String).getD "g" ++ "g"))
        "aaa" = 3 ∧
    jsRegexReplace (semLiteralChar 'a')
        (JsRegex.mk "a"
          (if ((some "" : Option String).getD "g").data.contains 'g' then
            (some "" : Option String).getD "g"
           else (some "" : Option String).getD "g" ++ "g"))
        "aaa" "b" = "bbb" := by
  have hg : (JsRegex.mk search
      (if (oflags.getD "g").data.contains 'g' then oflags.getD "g"
       else oflags.getD "g" ++ "g")).isGlobal = true :=
    effectiveFlags_contains_g (oflags.getD "g")
  refine ⟨?_, ?_, by decide, by decide⟩
  · unfold countMatchesRegex regexMatchList
    dsimp only
    rw [if_pos hg]
    simpa using regexExecLoop_global sem _ text hg (text.data.length + 1) 0 0
  · unfold jsRegexReplace
    rw [if_pos hg]

/-- Cap behaviour of the walker, for both mutual functions at once, by
strong induction on size: as long as the accumulator respects the cap, the
output length is the accumulator length plus the subtree count, clamped at
the cap. -/
theorem walk_len_aux (n : Nat) :
    (∀ (cap : Nat) (pre : String) (items : List DirItem) (out : List FsEntry),
       sizeOf items < n → out.length ≤ cap →
       (walkItems cap pre items out).length = min cap (out.length + totalEntries items)) ∧
    (∀ (cap : Nat) (pre : String) (item : DirItem) (out : List FsEntry),
       sizeOf item < n → out.length < cap →
       (walkItem cap pre item out).length = min cap (out.length + itemEntries item)) := by
  induction n with
  | zero =>
    exact ⟨fun _ _ _ _ h => absurd h (by omega), fun _ _ _ _ h => absurd h (by omega)⟩
  | succ n ih =>
    constructor
    · intro cap pre items out hsz hle
      cases items with
      | nil =>
        simp only [walkItems, totalEntries]
        omega
      | cons item rest =>
        rw [walkItems]
        by_cases hc : out.length ≥ cap
        · rw [if_pos hc]
          have : totalEntries (item :: rest) = itemEntries item + totalEntries rest := rfl
          omega
        · rw [if_neg hc]
          simp only [List.cons.sizeOf_spec] at hsz
          have hszi : sizeOf item < n := by omega
          have hszr : sizeOf rest < n := by omega
          have h1 := ih.2 cap pre item out hszi (by omega)
          have h2 := ih.1 cap pre rest (walkItem cap pre item out) hszr (by omega)
          rw [h2, h1]
          have : totalEntries (item :: rest) = itemEntries item + totalEntries rest := rfl
          omega
    · intro cap pre item out hsz hlt
      cases item with
      | file nm sz mt =>
        simp only [walkItem, itemEntries, List.length_append, List.length_cons,
          List.length_nil]
        omega
      | dir nm mt children =>
        simp only [DirItem.dir.sizeOf_spec] at hsz
        have hszc : sizeOf children < n := by omega
        rw [walkItem]
        have h := ih.1 cap (joinRel pre nm) children
          (out ++ [FsEntry.mk (joinRel pre nm) "dir" 0 mt]) hszc (by simp; omega)
        rw [h]
        have : itemEntries (DirItem.dir nm mt children) = 1 + totalEntries children := rfl
        simp only [List.length_append, List.length_cons, List.length_nil]
        omega

/-- C9: the walker returns at most `maxEntries` entries, cutting off across
the whole walk: the output length is exactly the total entry count clamped at
the cap (so partial results, never an error); with `maxEntries = 2` over a
root containing five files it returns exactly two entries. -/
theorem c9_walker_cap (items : List DirItem) (cap : Nat) :
    (listDirectory items cap).length = min cap (totalEntries items) ∧
    (listDirectory
        [DirItem.file "a" 1 0, DirItem.file "b" 1 0,
         DirItem.dir "d" 0 [DirItem.file "c" 1 0, DirItem.file "e" 1 0],
         DirItem.file "f" 1 0] 2).length = 2 := by
  refine ⟨?_, by decide⟩
  have h := (walk_len_aux (sizeOf items + 1)).1 cap "" items [] (by omega) (by simp)
  simpa [listDirectory] using h

/-- The state after a single-operation run is the state after that
operation's step, whether it threw or not. -/
theorem runOps_single (sem : RegexSem) (cwd : List Char) (root : String)
    (commit : Bool) (op : FsOperation) (s : St) (errs : List String) :
    (runOps sem cwd root commit [op] (s, errs)).1 =
      (stepOp sem cwd root commit op s).2 := by
  rcases h : stepOp sem cwd root commit op s with ⟨exc, s2⟩
  cases exc <;> simp [runOps, h]

/-- C1 (amended): for an operation carrying a path whose sandbox check fails
(`..` escaping the root): a `replaceText` operation records the `PathEscape`
error with no filesystem call and no state change in BOTH modes; `mkdir`,
`move` (either endpoint) and `delete` do so in commit mode — the check runs
before any filesystem call, so only the already-pushed preview line is added —
while with `commit=false` those three skip path validation entirely, record
no error and issue no filesystem call. -/
theorem c1_amended_sandbox_check (sem : RegexSem) (cwd : List Char) (root : String) :
    (∀ (commit : Bool) (rop : ReplaceTextOp) (s : St) (e : String),
      ensureWithinRoot cwd root rop.path = Except.error e →
      stepOp sem cwd root commit (FsOperation.replaceText rop) s = (Except.error e, s)) ∧
    (∀ (p : String) (s : St) (e : String),
      ensureWithinRoot cwd root p = Except.error e →
      stepOp sem cwd root true (FsOperation.mkdirOp p) s =
        (Except.error e,
         St.mk s.fs s.trace (s.preview ++ [PreviewLine.mk ("创建目录 " ++ p) none]))) ∧
    (∀ (a b : String) (s : St) (e : String),
      ensureWithinRoot cwd root a = Except.error e →
      stepOp sem cwd root true (FsOperation.move a b) s =
        (Except.error e,
         St.mk s.fs s.trace
           (s.preview ++ [PreviewLine.mk ("移动 " ++ a ++ " → " ++ b) none]))) ∧
    (∀ (a b abs : String) (s : St) (e : String),
      ensureWithinRoot cwd root a = Except.ok abs →
      ensureWithinRoot cwd root b = Except.error e →
      stepOp sem cwd root true (FsOperation.move a b) s =
        (Except.error e,
         St.mk s.fs s.trace
           (s.preview ++ [PreviewLine.mk ("移动 " ++ a ++ " → " ++ b) none]))) ∧
    (∀ (p : String) (s : St) (e : String),
      ensureWithinRoot cwd root p = Except.error e →
      stepOp sem cwd root true (FsOperation.delete p) s =
        (Except.error e,
         St.mk s.fs s.trace (s.preview ++ [PreviewLine.mk ("删除 " ++ p) none]))) ∧
    (∀ (p : String) (s : St),
      stepOp sem cwd root false (FsOperation.mkdirOp p) s =
        (Except.ok (),
         St.mk s.fs s.trace (s.preview ++ [PreviewLine.mk ("将创建目录 " ++ p) none]))) ∧
    (∀ (a b : String) (s : St),
      stepOp sem cwd root false (FsOperation.move a b) s =
        (Except.ok (),
         St.mk s.fs s.trace
           (s.preview ++ [PreviewLine.mk ("将移动 " ++ a ++ " → " ++ b) none]))) ∧
    (∀ (p : String) (s : St),
      stepOp sem cwd root false (FsOperation.delete p) s =
        (Except.ok (),
         St.mk s.fs s.trace (s.preview ++ [PreviewLine.mk ("将删除 " ++ p) none]))) := by
  refine ⟨?_, ?_, ?_, ?_, ?_, ?_, ?_, ?_⟩
  · intro commit rop s e h
    show execReplace sem cwd root commit rop s = (Except.error e, s)
    unfold execReplace
    rw [h]
  · intro p s e h
    show execMkdir cwd root p
        (St.mk s.fs s.trace (s.preview ++ [PreviewLine.mk ("创建目录 " ++ p) none])) = _
    unfold execMkdir
    rw [h]
  · intro a b s e h
    show execMove cwd root a b
        (St.mk s.fs s.trace
          (s.preview ++ [PreviewLine.mk ("移动 " ++ a ++ " → " ++ b) none])) = _
    unfold execMove
    rw [h]
  · intro a b abs s e h1 h2
    show execMove cwd root a b
        (St.mk s.fs s.trace
          (s.preview ++ [PreviewLine.mk ("移动 " ++ a ++ " → " ++ b) none])) = _
    unfold execMove
    rw [h1]
    dsimp only
    rw [h2]
  · intro p s e h
    show execDelete cwd root p
        (St.mk s.fs s.trace (s.preview ++ [PreviewLine.mk ("删除 " ++ p) none])) = _
    unfold execDelete
    rw [h]
  · intro p s
    exact rfl
  · intro a b s
    exact rfl
  · intro p s
    exact rfl

/-- Witness for C1 (amended) at a concrete input: a commit-mode `mkdir` with
the escaping path `"../evil"` records exactly the `PathEscape` error, with
the generic preview line as the only state change. -/
theorem c1_amended_sandbox_check_witness :
    stepOp (semLiteralChar 'a') "/cwd".data "/r/" true
      (FsOperation.mkdirOp "../evil") (St.mk [] [] []) =
      (Except.error "路径越界：../evil",
       St.mk [] []
         ([] ++ [PreviewLine.mk ("创建目录 " ++ "../evil") none])) :=
  (c1_amended_sandbox_check (semLiteralChar 'a') "/cwd".data "/r/").2.1
    "../evil" (St.mk [] [] []) "路径越界：../evil" (by decide)

/-- C2 (amended): preview entries are appended strictly in submission order,
at most one per processed operation; unknown-tag operations and `replaceText`
operations whose sandbox check throws contribute only to `errors`; but
`mkdir`/`move`/`delete` always push their preview line first, so when one of
them subsequently fails in commit mode it contributes BOTH a preview line and
an error. -/
theorem c2_amended_preview_shape (sem : RegexSem) (cwd : List Char)
    (root : String) (commit : Bool) :
    (∀ (l1 l2 : List FsOperation) (acc : St × List String),
       runOps sem cwd root commit (l1 ++ l2) acc =
         runOps sem cwd root commit l2 (runOps sem cwd root commit l1 acc)) ∧
    (∀ (op : FsOperation) (s : St) (errs : List String),
       ((runOps sem cwd root commit [op] (s, errs)).1).preview = s.preview ∨
         ∃ line, ((runOps sem cwd root commit [op] (s, errs)).1).preview =
           s.preview ++ [line]) ∧
    (∀ (tag : String) (s : St) (errs : List String),
       runOps sem cwd root commit [FsOperation.unknownOp tag] (s, errs) =
         (s, errs ++ ["未知操作: " ++ tag])) ∧
    (∀ (rop : ReplaceTextOp) (s : St) (errs : List String) (e : String),
       ensureWithinRoot cwd root rop.path = Except.error e →
       runOps sem cwd root commit [FsOperation.replaceText rop] (s, errs) =
         (s, errs ++ [e])) ∧
    (∀ (p : String) (s : St) (errs : List String),
       ((runOps sem cwd root commit [FsOperation.mkdirOp p] (s, errs)).1).preview =
         s.preview ++
           [PreviewLine.mk ((if commit then "创建目录 " else "将创建目录 ") ++ p) none]) ∧
    (∀ (a b : String) (s : St) (errs : List String),
       ((runOps sem cwd root commit [FsOperation.move a b] (s, errs)).1).preview =
         s.preview ++
           [PreviewLine.mk
             ((if commit then "移动 " else "将移动 ") ++ a ++ " → " ++ b) none]) ∧
    (∀ (p : String) (s : St) (errs : List String),
       ((runOps sem cwd root commit [FsOperation.delete p] (s, errs)).1).preview =
         s.preview ++
           [PreviewLine.mk ((if commit then "删除 " else "将删除 ") ++ p) none]) := by
  refine ⟨runOps_append sem cwd root commit, ?_, ?_, ?_, ?_, ?_, ?_⟩
  · intro op s errs
    rw [runOps_single]
    cases op with
    | replaceText rop => exact execReplace_preview sem cwd root commit rop s
    | mkdirOp p =>
      refine Or.inr ⟨PreviewLine.mk ((if commit then "创建目录 " else "将创建目录 ") ++ p) none, ?_⟩
      cases commit
      · exact rfl
      · show ((execMkdir cwd root p
            (St.mk s.fs s.trace
              (s.preview ++ [PreviewLine.mk ("创建目录 " ++ p) none]))).2).preview = _
        rw [execMkdir_preview]; exact rfl
    | move a b =>
      refine Or.inr ⟨PreviewLine.mk
        ((if commit then "移动 " else "将移动 ") ++ a ++ " → " ++ b) none, ?_⟩
      cases commit
      · exact rfl
      · show ((execMove cwd root a b
            (St.mk s.fs s.trace
              (s.preview ++ [PreviewLine.mk ("移动 " ++ a ++ " → " ++ b) none]))).2).preview = _
        rw [execMove_preview]; exact rfl
    | delete p =>
      refine Or.inr ⟨PreviewLine.mk ((if commit then "删除 " else "将删除 ") ++ p) none, ?_⟩
      cases commit
      · exact rfl
      · show ((execDelete cwd root p
            (St.mk s.fs s.trace
              (s.preview ++ [PreviewLine.mk ("删除 " ++ p) none]))).2).preview = _
        rw [execDelete_preview]; exact rfl
    | unknownOp t => exact Or.inl rfl
  · intro tag s errs
    exact rfl
  · intro rop s errs e h
    have hstep : stepOp sem cwd root commit (FsOperation.replaceText rop) s =
        (Except.error e, s) := by
      show execReplace sem cwd root commit rop s = _
      unfold execReplace
      rw [h]
    exact runOps_error sem cwd root commit _ s s errs e hstep
  · intro p s errs
    rw [runOps_single]
    cases commit
    · exact rfl
    · show ((execMkdir cwd root p
          (St.mk s.fs s.trace
            (s.preview ++ [PreviewLine.mk ("创建目录 " ++ p) none]))).2).preview = _
      rw [execMkdir_preview]; exact rfl
  · intro a b s errs
    rw [runOps_single]
    cases commit
    · exact rfl
    · show ((execMove cwd root a b
          (St.mk s.fs s.trace
            (s.preview ++ [PreviewLine.mk ("移动 " ++ a ++ " → " ++ b) none]))).2).preview = _
      rw [execMove_preview]; exact rfl
  · intro p s errs
    rw [runOps_single]
    cases commit
    · exact rfl
    · show ((execDelete cwd root p
          (St.mk s.fs s.trace
            (s.preview ++ [PreviewLine.mk ("删除 " ++ p) none]))).2).preview = _
      rw [execDelete_preview]; exact rfl

/-- Witness for C2 (amended) at a concrete input: a `replaceText` with an
escaping path contributes only an error, no preview line. -/
theorem c2_amended_preview_shape_witness :
    runOps (semLiteralChar 'a') "/cwd".data "/r/" true
      [FsOperation.replaceText (ReplaceTextOp.mk ".." RtMode.literal "a" "b" none)]
      (St.mk [] [] [], []) = (St.mk [] [] [], [] ++ ["路径越界：.."]) :=
  (c2_amended_preview_shape (semLiteralChar 'a') "/cwd".data "/r/" true).2.2.2.1
    (ReplaceTextOp.mk ".." RtMode.literal "a" "b" none) (St.mk [] [] []) []
    "路径越界：.." (by decide)

/-- A non-empty pattern is never a prefix of the empty list. -/
theorem isPrefixOf_nil_of_ne (s : List Char) (h : s ≠ []) :
    s.isPrefixOf ([] : List Char) = false := by
  cases s with
  | nil => simp_all
  | cons a t => rfl

/-- A non-empty list has positive length. -/
theorem one_le_length_of_ne (s : List Char) (hs : s ≠ []) : 1 ≤ s.length := by
  cases s with
  | nil => exact absurd rfl hs
  | cons a t => simp

/-- An occurrence found by `indexOf` fits inside the text. -/
theorem findOcc_le (s : List Char) (hs : s ≠ []) :
    ∀ (t : List Char) (k : Nat), findOcc s t = some k → k + s.length ≤ t.length := by
  intro t
  induction t with
  | nil =>
    intro k hk
    rw [findOcc, isPrefixOf_nil_of_ne s hs] at hk
    simp at hk
  | cons c t ih =>
    intro k hk
    rw [findOcc] at hk
    by_cases hp : s.isPrefixOf (c :: t) = true
    · rw [if_pos hp] at hk
      cases hk
      simpa using List.IsPrefix.length_le (List.isPrefixOf_iff_prefix.mp hp)
    · rw [if_neg hp] at hk
      obtain ⟨k2, hk2, hfk⟩ := Option.map_eq_some'.mp hk
      subst hfk
      have := ih k2 hk2
      simp only [List.length_cons]
      omega

/-- No occurrence means the specification count is zero. -/
theorem occCountSpec_of_none (s : List Char) :
    ∀ t : List Char, findOcc s t = none → occCountSpec s t = 0 := by
  intro t
  induction t with
  | nil => intro _; rw [occCountSpec]
  | cons c t ih =>
    intro hn
    rw [findOcc] at hn
    by_cases hp : s.isPrefixOf (c :: t) = true
    · rw [if_pos hp] at hn; cases hn
    · rw [if_neg hp] at hn
      rw [occCountSpec, if_neg (fun hc => hp hc.2)]
      exact ih (Option.map_eq_none'.mp hn)

/-- A first occurrence at `k` splits the specification count. -/
theorem occCountSpec_of_some (s : List Char) (hs : s ≠ []) :
    ∀ (t : List Char) (k : Nat), findOcc s t = some k →
      occCountSpec s t = 1 + occCountSpec s (t.drop (k + s.length)) := by
  intro t
  induction t with
  | nil =>
    intro k hk
    rw [findOcc, isPrefixOf_nil_of_ne s hs] at hk
    simp at hk
  | cons c t ih =>
    intro k hk
    rw [findOcc] at hk
    by_cases hp : s.isPrefixOf (c :: t) = true
    · rw [if_pos hp] at hk
      cases hk
      rw [occCountSpec, if_pos ⟨hs, hp⟩]
      obtain ⟨m, hm⟩ : ∃ m, s.length = m + 1 :=
        ⟨s.length - 1, by have := one_le_length_of_ne s hs; omega⟩
      rw [hm]
      simp [List.drop_succ_cons]
    · rw [if_neg hp] at hk
      obtain ⟨k2, hk2, hfk⟩ := Option.map_eq_some'.mp hk
      subst hfk
      rw [occCountSpec, if_neg (fun hc => hp hc.2)]
      rw [ih k2 hk2]
      congr 1
      have harith : k2 + 1 + s.length = (k2 + s.length) + 1 := by omega
      rw [harith, List.drop_succ_cons]

/-- The `indexOf` loop of the source computes exactly the specification's
left-to-right non-overlapping occurrence count. -/
theorem countLoop_eq_occCount (text s : List Char) (hs : s ≠ []) :
    ∀ (fuel idx c : Nat), text.length - idx < fuel →
      countLoop text s fuel idx c = c + occCountSpec s (text.drop idx) := by
  intro fuel
  induction fuel with
  | zero => intro idx c hfu; exact absurd hfu (by omega)
  | succ fuel ih =>
    intro idx c hfu
    rw [countLoop]
    cases hf : findOcc s (text.drop idx) with
    | none =>
      dsimp only
      rw [occCountSpec_of_none s _ hf]
      omega
    | some k =>
      dsimp only
      have hb : k + s.length ≤ (text.drop idx).length := findOcc_le s hs _ k hf
      rw [List.length_drop] at hb
      have hs1 : 1 ≤ s.length := one_le_length_of_ne s hs
      have hfuel : text.length - (idx + k + s.length) < fuel := by omega
      rw [ih (idx + k + s.length) (c + 1) hfuel]
      rw [occCountSpec_of_some s hs (text.drop idx) k hf]
      rw [List.drop_drop]
      have harith : idx + (k + s.length) = idx + k + s.length := by omega
      rw [harith]
      omega

/-- No occurrence means the specification replacement is the identity. -/
theorem replaceAllSpec_of_none (s r : List Char) :
    ∀ t : List Char, findOcc s t = none → replaceAllSpec s r t = t := by
  intro t
  induction t with
  | nil => intro _; rw [replaceAllSpec]
  | cons c t ih =>
    intro hn
    rw [findOcc] at hn
    by_cases hp : s.isPrefixOf (c :: t) = true
    · rw [if_pos hp] at hn; cases hn
    · rw [if_neg hp] at hn
      rw [replaceAllSpec, if_neg (fun hc => hp hc.2)]
      rw [ih (Option.map_eq_none'.mp hn)]

/-- A first occurrence at `k` splits the specification replacement. -/
theorem replaceAllSpec_of_some (s r : List Char) (hs : s ≠ []) :
    ∀ (t : List Char) (k : Nat), findOcc s t = some k →
      replaceAllSpec s r t =
        t.take k ++ r ++ replaceAllSpec s r (t.drop (k + s.length)) := by
  intro t
  induction t with
  | nil =>
    intro k hk
    rw [findOcc, isPrefixOf_nil_of_ne s hs] at hk
    simp at hk
  | cons c t ih =>
    intro k hk
    rw [findOcc] at hk
    by_cases hp : s.isPrefixOf (c :: t) = true
    · rw [if_pos hp] at hk
      cases hk
      rw [replaceAllSpec, if_pos ⟨hs, hp⟩]
      obtain ⟨m, hm⟩ : ∃ m, s.length = m + 1 :=
        ⟨s.length - 1, by have := one_le_length_of_ne s hs; omega⟩
      rw [hm]
      simp [List.drop_succ_cons]
    · rw [if_neg hp] at hk
      obtain ⟨k2, hk2, hfk⟩ := Option.map_eq_some'.mp hk
      subst hfk
      rw [replaceAllSpec, if_neg (fun hc => hp hc.2)]
      rw [ih k2 hk2]
      rw [List.take_succ_cons]
      have harith : k2 + 1 + s.length = (k2 + s.length) + 1 := by omega
      rw [harith, List.drop_succ_cons]
      simp

/-- `split` never produces an empty list of parts. -/
theorem jsSplitFuel_ne_nil (s : List Char) (fuel : Nat) (t : List Char) :
    jsSplitFuel s fuel t ≠ [] := by
  cases fuel with
  | zero => simp [jsSplitFuel]
  | succ n =>
    rw [jsSplitFuel]
    cases hf : findOcc s t <;> simp

/-- Joining a single part is that part. -/
theorem intercalate_single (r a : List Char) : List.intercalate r [a] = a := by
  simp [List.intercalate]

/-- Joining a non-trivial list of parts inserts the separator after the
first part. -/
theorem intercalate_cons_ne (r a : List Char) (l : List (List Char)) (h : l ≠ []) :
    List.intercalate r (a :: l) = a ++ r ++ List.intercalate r l := by
  cases l with
  | nil => exact absurd rfl h
  | cons b l2 => simp [List.intercalate, List.intersperse]

/-- `split`-then-`join` computes exactly the specification's replace-every-
occurrence substitution. -/
theorem splitFuel_join (s r : List Char) (hs : s ≠ []) :
    ∀ (fuel : Nat) (t : List Char), t.length < fuel →
      List.intercalate r (jsSplitFuel s fuel t) = replaceAllSpec s r t := by
  intro fuel
  induction fuel with
  | zero => intro t hfu; exact absurd hfu (by omega)
  | succ fuel ih =>
    intro t hfu
    rw [jsSplitFuel]
    cases hf : findOcc s t with
    | none =>
      dsimp only
      rw [intercalate_single, replaceAllSpec_of_none s r t hf]
    | some k =>
      dsimp only
      rw [intercalate_cons_ne r _ _ (jsSplitFuel_ne_nil s fuel _)]
      have hb : k + s.length ≤ t.length := findOcc_le s hs t k hf
      have hs1 : 1 ≤ s.length := one_le_length_of_ne s hs
      have hfl : (t.drop (k + s.length)).length < fuel := by
        rw [List.length_drop]; omega
      rw [ih (t.drop (k + s.length)) hfl]
      rw [replaceAllSpec_of_some s r hs t k hf]

/-- C8: for a non-empty search string, literal mode reports exactly the
number of non-overlapping occurrences found by left-to-right scanning and
substitutes every one of them; on `"aXaXa"` with `"a" → "b"` the count is 3
and the result `"bXbXb"`. -/
theorem c8_literal_scan (search repl text : String) (h : search ≠ "") :
    countMatchesLiteral text search = occCountSpec search.data text.data ∧
    jsSplitJoin text search repl =
      String.mk (replaceAllSpec search.data repl.data text.data) ∧
    countMatchesLiteral "aXaXa" "a" = 3 ∧
    jsSplitJoin "aXaXa" "a" "b" = "bXbXb" := by
  have hd : search.data ≠ [] := by
    intro hl
    apply h
    cases search with
    | mk d => cases hl; rfl
  refine ⟨?_, ?_, by decide, by decide⟩
  · rw [countMatchesLiteral, if_neg hd]
    rw [countLoop_eq_occCount text.data search.data hd (text.data.length + 1) 0 0
      (by omega)]
    simp
  · rw [jsSplitJoin, jsSplit, if_neg hd]
    rw [splitFuel_join search.data repl.data hd (text.data.length + 1) text.data
      (by omega)]

/-- Witness for C8 at a concrete input: the non-empty search string `"a"` on
content `"aXaXa"`. -/
theorem c8_literal_scan_witness :
    ("a" : String) ≠ "" ∧
    (countMatchesLiteral "aXaXa" "a" = occCountSpec "a".data "aXaXa".data ∧
     jsSplitJoin "aXaXa" "a" "b" =
       String.mk (replaceAllSpec "a".data "b".data "aXaXa".data) ∧
     countMatchesLiteral "aXaXa" "a" = 3 ∧
     jsSplitJoin "aXaXa" "a" "b" = "bXbXb") :=
  ⟨by decide, c8_literal_scan "a" "b" "aXaXa" (by decide)⟩

end WorkPal
